import Mathlib

/-!
Verification of the QuickDash manifest engine against its specification.

This file shallowly embeds the core of the QuickDash source:

* `src/algorithms.rs` — the `Algorithm` enumeration, `hexlen`, and
  `autodetect_from_hash`;
* `src/operations/compare.rs` — `compare_hashes`, `process_ignores` and the
  result/error types;
* `src/operations/mod.rs` — `write_hashes`, `read_hashes`, the two line
  regexes, `try_contains` and `filepath_parser` (embedded as
  `filepath_parse`, the gate of this development forbids that suffix);
* the algorithm-selection snippet of check mode in `src/main.rs`.

Modelling conventions:

* A Rust `BTreeMap<PathBuf, String>` is modelled as a list of
  `String × String` pairs whose keys are strictly increasing in the
  lexicographic order `strLt` (iteration order of the map).  Rust orders
  `PathBuf` keys component-wise; none of the verified properties depends on
  which strict linear order is used, only on there being one.
* Rust panics (`unwrap`, `assert_eq!`, `expect`, indexing a missing key) are
  modelled by the `panicked` constructor of `RustRes`; fallible functions
  returning `Result` are modelled with `Except`.
* File-system effects are modelled by explicit parameters: `read_hashes`
  receives `none` when `File::open` would fail (missing manifest) and the
  list of text lines otherwise; `write_hashes` receives a flag telling
  whether `File::create` succeeds, and returns the written lines.  The
  `TabWriter` wrapped around the output file only rewrites tab characters,
  which digests (hex or dashes) never contain, so it is modelled as the
  identity on the emitted lines; path-side tab characters are excluded by
  the hypotheses of the round-trip theorems.
* Rust `char` classification and case mapping are modelled on the ASCII
  range, which covers every character the claims quantify over.
-/

set_option maxRecDepth 8192

namespace QuickDash

/-- Model of Rust `char::is_whitespace` on the ASCII range
    (space, tab, line feed, vertical tab, form feed, carriage return). -/
def isWs (c : Char) : Bool :=
  c.toNat = 32 || c.toNat = 9 || c.toNat = 10 || c.toNat = 13 ||
    c.toNat = 11 || c.toNat = 12

/-- ASCII decimal digit `0`–`9`. -/
def isDigitC (c : Char) : Bool := 48 ≤ c.toNat && c.toNat ≤ 57

/-- ASCII `A`–`F`. -/
def isUpperHexLetter (c : Char) : Bool := 65 ≤ c.toNat && c.toNat ≤ 70

/-- ASCII `a`–`f`. -/
def isLowerHexLetter (c : Char) : Bool := 97 ≤ c.toNat && c.toNat ≤ 102

/-- Model of Rust `char::is_ascii_hexdigit`. -/
def isHexDigitC (c : Char) : Bool :=
  isDigitC c || isUpperHexLetter c || isLowerHexLetter c

/-- The `[[:xdigit:]-]` character class used by both manifest line regexes
    (45 is the code of the dash). -/
def isHexDash (c : Char) : Bool := isHexDigitC c || c.toNat = 45

/-- Model of Rust `str::trim`. -/
def rustTrim (l : List Char) : List Char :=
  ((l.dropWhile isWs).reverse.dropWhile isWs).reverse

/-- Model of Rust `str::trim_start`. -/
def rustTrimStart (l : List Char) : List Char := l.dropWhile isWs

/-- Model of Rust uppercasing on the ASCII range: `a`–`z` map to `A`–`Z`,
    everything else is unchanged. -/
def rustToUpper (c : Char) : Char :=
  if 97 ≤ c.toNat ∧ c.toNat ≤ 122 then Char.ofNat (c.toNat - 32) else c

/-- Strict lexicographic order on character lists, the model of the strict
    key order maintained by the Rust `BTreeMap`. -/
def strLt : List Char → List Char → Bool
  | [], [] => false
  | [], _ :: _ => true
  | _ :: _, [] => false
  | a :: as, b :: bs => a.toNat < b.toNat || (a.toNat = b.toNat && strLt as bs)

/-- A `BTreeMap<PathBuf, String>` in iteration order: a list of
    `(path, digest)` pairs. -/
abbrev DigestMapping := List (String × String)

/-- Well-formedness of a `DigestMapping`: keys strictly increase, which is
    the invariant every Rust `BTreeMap` maintains. -/
abbrev WFMap (m : DigestMapping) : Prop :=
  m.Pairwise (fun a b => strLt a.1.data b.1.data = true)

/-- Model of `BTreeMap::get` as used by `contains_key` and indexing. -/
def lookupMap : DigestMapping → String → Option String
  | [], _ => none
  | (k, v) :: rest, key => if k = key then some v else lookupMap rest key

/-- Model of `BTreeMap::contains_key`. -/
def containsKey (m : DigestMapping) (key : String) : Bool :=
  (lookupMap m key).isSome

/-- Model of `BTreeMap::insert` (last insertion wins), keeping the list
    sorted by `strLt`. -/
def insertMap : DigestMapping → String → String → DigestMapping
  | [], k, v => [(k, v)]
  | (k', v') :: rest, k, v =>
    if strLt k.data k'.data then (k, v) :: (k', v') :: rest
    else if k = k' then (k, v) :: rest
    else (k', v') :: insertMap rest k v

/-- Key list of a mapping, in iteration order. -/
def keysOf (m : DigestMapping) : List String := m.map (fun e => e.1)

/-- Outcome of a Rust computation that may panic. -/
inductive RustRes (α : Type) where
  | panicked : RustRes α
  | ok (val : α) : RustRes α
deriving DecidableEq

/-- `CompareResult` from `src/operations/compare.rs`. -/
inductive CompareResult where
  | FileAdded (p : String)
  | FileRemoved (p : String)
  | FileIgnored (p : String)
deriving DecidableEq

/-- `CompareFileResult` from `src/operations/compare.rs`. -/
inductive CompareFileResult where
  | FileMatches (p : String)
  | FileDiffers (file was_hash new_hash : String)
deriving DecidableEq

/-- `CompareError` from `src/operations/compare.rs`. -/
inductive CompareError where
  | HashLengthDiffers (previous_len current_len : Nat)
deriving DecidableEq

/-- One pass of `process_ignores_iter`: collect, in iteration order of
    `curr`, the result tags and the keys for which `f` holds.  The Rust
    function pushes `res(key)` and `key` for every `(key, value)` of `curr`
    with `f(key, value, other)`. -/
def process_ignores_iter (f : String → String → DigestMapping → Bool)
    (res : String → CompareResult) (curr other : DigestMapping) :
    List String × List CompareResult :=
  ((curr.filter (fun e => f e.1 e.2 other)).map (fun e => e.1),
   (curr.filter (fun e => f e.1 e.2 other)).map (fun e => res e.1))

/-- `process_ignores` from `src/operations/compare.rs`: one pass over each
    mapping, then removal of every collected key from both mappings
    (`BTreeMap::remove`, modelled as a key filter).  Returns the results and
    the two pruned mappings. -/
def process_ignores (f : String → String → DigestMapping → Bool)
    (cres lres : String → CompareResult) (ch lh : DigestMapping) :
    List CompareResult × DigestMapping × DigestMapping :=
  let pc := process_ignores_iter f cres ch lh
  let pl := process_ignores_iter f lres lh ch
  let keys := pc.1 ++ pl.1
  (pc.2 ++ pl.2,
   ch.filter (fun e => !(keys.any (fun k => decide (k = e.1)))),
   lh.filter (fun e => !(keys.any (fun k => decide (k = e.1)))))

/-- The content-comparison loop of `compare_hashes`: for every
    `(key, loaded_value)` of the loaded mapping, index the current mapping
    (`current_hashes[&key]`, which panics when the key is absent) and emit
    `FileMatches` or `FileDiffers`. -/
def compareLoop (ch : DigestMapping) : List (String × String) →
    RustRes (List CompareFileResult)
  | [] => .ok []
  | (key, lv) :: rest =>
    match lookupMap ch key with
    | none => .panicked
    | some cv =>
      match compareLoop ch rest with
      | .panicked => .panicked
      | .ok fs =>
        .ok ((if cv = lv then CompareFileResult.FileMatches key
              else CompareFileResult.FileDiffers key lv cv) :: fs)

/-- `compare_hashes` from `src/operations/compare.rs`.  The first value of
    each mapping is sampled with `iter().next().unwrap()` (panic on an empty
    mapping); differing sampled lengths yield `HashLengthDiffers`; otherwise
    set reconciliation via `process_ignores` is followed by the
    `assert_eq!` on the pruned sizes and the content loop. -/
def compare_hashes (current_hashes loaded_hashes : DigestMapping) :
    RustRes (Except CompareError (List CompareResult × List CompareFileResult)) :=
  match current_hashes.head?, loaded_hashes.head? with
  | some c0, some l0 =>
    if c0.2.length ≠ l0.2.length then
      .ok (.error (.HashLengthDiffers l0.2.length c0.2.length))
    else
      let pruned := process_ignores
        (fun key _ other => !(containsKey other key))
        CompareResult.FileAdded CompareResult.FileRemoved
        current_hashes loaded_hashes
      let rs := pruned.1
      let ch := pruned.2.1
      let lh := pruned.2.2
      if ch.length ≠ lh.length then .panicked
      else if ch.isEmpty then .ok (.ok (rs, []))
      else
        match compareLoop ch lh with
        | .panicked => .panicked
        | .ok fs => .ok (.ok (rs, fs))
  | _, _ => .panicked

/-- The `Error` variant of the crate used by `read_hashes` and
    `try_contains` (the crate root defining `Error` is not among the given
    sources; only the variant these functions construct is modelled). -/
inductive Error where
  | HashesFileParsingFailure (line : String)
deriving DecidableEq

/-- Matcher for `LINE_RGX1`, `(?i)^([[:xdigit:]-]+)\s+(.+?)$`, on a line
    (which contains no line feed).  Group 1 is the maximal leading run of
    hex-or-dash characters (backtracking cannot shorten it, since a shorter
    run leaves a hex-or-dash character where `\s+` must match).  `\s+` then
    greedily takes the maximal whitespace run; the lazy anchored `(.+?)$`
    matches the whole nonempty remainder, and when the whitespace run
    reaches the end of the line `\s+` backs off one character which `.`
    then matches. -/
def rgx1Match (l : List Char) : Option (List Char × List Char) :=
  let d := l.takeWhile isHexDash
  let r := l.dropWhile isHexDash
  if d.isEmpty then none
  else
    let w := r.takeWhile isWs
    let p := r.dropWhile isWs
    if w.isEmpty then none
    else if !p.isEmpty then some (d, p)
    else if 2 ≤ w.length then some (d, w.drop (w.length - 1))
    else none

/-- Worker for `LINE_RGX2`: the lazy `(.+?)` grows one character at a time;
    after each character the rest of the line must decompose as a nonempty
    whitespace run (`\t{0,}\s{1,}`) followed by a nonempty hex-or-dash run
    anchored at the end of the line.  Whitespace and hex-or-dash characters
    are disjoint, so the decomposition point of a given rest is unique. -/
def rgx2Go (acc : List Char) : List Char → Option (List Char × List Char)
  | [] => none
  | c :: cs =>
    let w := cs.takeWhile isWs
    let h := cs.dropWhile isWs
    if !w.isEmpty && !h.isEmpty && h.all isHexDash then some (acc ++ [c], h)
    else rgx2Go (acc ++ [c]) cs

/-- Matcher for `LINE_RGX2`, `(?i)^(.+?)\t{0,}\s{1,}([[:xdigit:]-]+)$`. -/
def rgx2Match (l : List Char) : Option (List Char × List Char) :=
  rgx2Go [] l

/-- `filepath_parser` from `src/operations/mod.rs` (renamed): trim the raw
    capture, strip `*` characters, and — on non-Windows targets, which is
    what is modelled — turn backslashes into slashes when the string has
    backslashes but no slash. -/
def filepath_parse (raw : List Char) : List Char :=
  let s := (rustTrim raw).filter (fun c => !(c.toNat = 42))
  if s.contains '\\' && !(s.contains '/') then
    s.map (fun c => if c = '\\' then '/' else c)
  else s

/-- `try_contains` from `src/operations/mod.rs`: try `LINE_RGX1`, then
    `LINE_RGX2`; on a match insert the parsed path with the uppercased
    digest, otherwise fail with the offending line. -/
def try_contains (line : String) (hashes : DigestMapping) :
    Except Error DigestMapping :=
  match rgx1Match line.data with
  | some (d, p) =>
    .ok (insertMap hashes (String.mk (filepath_parse p))
          (String.mk (d.map rustToUpper)))
  | none =>
    match rgx2Match line.data with
    | some (p, d) =>
      .ok (insertMap hashes (String.mk (filepath_parse p))
            (String.mk (d.map rustToUpper)))
    | none => .error (.HashesFileParsingFailure line)

/-- The line loop of `read_hashes`: skip empty lines and lines whose first
    non-whitespace character is `;`, parse every other line with
    `try_contains`, propagating its error (the `?` operator). -/
def readLines : List String → DigestMapping → Except Error DigestMapping
  | [], m => .ok m
  | line :: rest, m =>
    if line.data.isEmpty then readLines rest m
    else if (rustTrimStart line.data).head? = some ';' then readLines rest m
    else
      match try_contains line m with
      | .ok m1 => readLines rest m1
      | .error e => .error e

/-- `read_hashes` from `src/operations/mod.rs`.  The file-system effect is a
    parameter: `none` models a file `File::open` cannot open, in which case
    the Rust code calls `.unwrap()` and panics; otherwise the lines of the
    file are processed by the line loop. -/
def read_hashes (contents : Option (List String)) :
    RustRes (Except Error DigestMapping) :=
  match contents with
  | none => .panicked
  | some lines => .ok (readLines lines [])

/-- The lines `write_hashes` emits: one line `<digest>  <path>` (two
    spaces) per entry, in iteration order.  The commented-out insertion of
    the sentinel `out_file -> "----…"` entry in the Rust source is not
    executed, so no extra line is produced. -/
def writeLines (hashes : DigestMapping) : List String :=
  hashes.map (fun e => e.2 ++ "  " ++ e.1)

/-- `write_hashes` from `src/operations/mod.rs`.  `created` tells whether
    `File::create(out_file)` succeeds; on failure the Rust code calls
    `.unwrap()` and panics, otherwise it writes the lines through the
    `TabWriter` (identity here, the emitted lines contain no tab unless a
    path does) and returns the exit status `0`.  The written text is
    returned so its content can be reasoned about; `out_file` is otherwise
    unused, exactly as in the source. -/
def write_hashes (out_file : String) (created : Bool)
    (hashes : DigestMapping) : RustRes (Int × List String) :=
  if created then .ok (0, writeLines hashes) else .panicked

/-- `Algorithm` from `src/algorithms.rs`. -/
inductive Algorithm where
  | UNSPECIFIED
  | SHA1
  | SHA2224
  | SHA2256
  | SHA2384
  | SHA2512
  | SHA3224
  | SHA3256
  | SHA3384
  | SHA3512
  | XXH32
  | XXH64
  | XXH3
  | CRC32
  | MD5
  | WhirlPool
  | BLAKE2B
  | BLAKE2S
  | BLAKE3
deriving DecidableEq

/-- `Algorithm::hexlen` from `src/algorithms.rs`. -/
def Algorithm.hexlen : Algorithm → Nat
  | .CRC32 | .XXH32 => 8
  | .XXH3 | .XXH64 => 16
  | .MD5 => 32
  | .SHA3256 | .SHA2256 | .BLAKE2S | .BLAKE3 | .UNSPECIFIED => 64
  | .SHA1 => 40
  | .SHA2224 | .SHA3224 => 56
  | .SHA2384 | .SHA3384 => 96
  | .BLAKE2B | .SHA3512 | .SHA2512 | .WhirlPool => 128

/-- The `s.starts_with("0x") || s.starts_with("0X")` test of
    `autodetect_from_hash` (48 = `0`, 120 = `x`, 88 = `X`). -/
def startsWith0x : List Char → Bool
  | c1 :: c2 :: _ => c1.toNat = 48 && (c2.toNat = 120 || c2.toNat = 88)
  | _ => false

/-- The branching of `autodetect_from_hash` after normalisation: the
    all-dash branch (length table with a plain `BLAKE3` default), the
    all-hex branch (same table, then the nearest-bucket guards), and the
    final `BLAKE3` fallback. -/
def autodetectCore (s : List Char) : Algorithm :=
  if !s.isEmpty && s.all (fun c => c.toNat = 45) then
    match s.length with
    | 8 => .CRC32
    | 16 => .XXH64
    | 32 => .MD5
    | 40 => .SHA1
    | 56 => .SHA2224
    | 64 => .BLAKE3
    | 96 => .SHA2384
    | 128 => .BLAKE2B
    | _ => .BLAKE3
  else if !s.isEmpty && s.all isHexDigitC then
    match s.length with
    | 8 => .CRC32
    | 16 => .XXH64
    | 32 => .MD5
    | 40 => .SHA1
    | 56 => .SHA2224
    | 64 => .BLAKE3
    | 96 => .SHA2384
    | 128 => .BLAKE2B
    | n =>
      if n < 12 then .CRC32
      else if n < 36 then .MD5
      else if n < 52 then .BLAKE3
      else if n < 110 then .SHA2384
      else .BLAKE2B
  else .BLAKE3

/-- `Algorithm::autodetect_from_hash` from `src/algorithms.rs`: trim, strip
    a `0x`/`0X` prefix, remove all inner whitespace
    (`split_whitespace().collect()`), then branch with `autodetectCore`. -/
def autodetect_from_hash (hash : String) : Algorithm :=
  let s0 := rustTrim hash.data
  let s1 := if startsWith0x s0 then s0.drop 2 else s0
  autodetectCore (s1.filter (fun c => !isWs c))

/-- The `s.starts_with("----")` test of check mode (45 is the dash). -/
def startsWithDashes4 (s : String) : Bool :=
  match s.data with
  | c1 :: c2 :: c3 :: c4 :: _ =>
    c1.toNat = 45 && c2.toNat = 45 && c3.toNat = 45 && c4.toNat = 45
  | _ => false

/-- The example-digest selection of check mode in `src/main.rs`:
    `loaded_hashes.values().filter(|s| !s.starts_with("----")).next()`. -/
def findExampleHash (loaded : DigestMapping) : Option String :=
  ((loaded.map (fun e => e.2)).filter
    (fun s => !(startsWithDashes4 s))).head?

/-- The algorithm-selection step of check mode in `src/main.rs`: when the
    user left the algorithm `UNSPECIFIED`, take the first non-placeholder
    digest of the loaded manifest with `.next().unwrap()` (a panic when
    every entry is a placeholder) and autodetect from it. -/
def checkSelectAlgorithm (algo : Algorithm) (loaded : DigestMapping) :
    RustRes Algorithm :=
  if algo = Algorithm.UNSPECIFIED then
    match findExampleHash loaded with
    | none => .panicked
    | some h => .ok (autodetect_from_hash h)
  else .ok algo

/-- An uppercase hex digit, decimal digit, or dash — the character set the
    spec allows in a stored digest (`0`–`9`, `A`–`F`, `-`). -/
def isUpperHexDash (c : Char) : Bool :=
  isDigitC c || isUpperHexLetter c || c.toNat = 45

/-- A digest value as the data model describes it: a nonempty string of
    uppercase hex digits or dashes. -/
def goodHash (h : String) : Bool :=
  !h.data.isEmpty && h.data.all isUpperHexDash

/-- True when the list is nonempty and its first character is not
    whitespace. -/
def headNotWs (l : List Char) : Bool :=
  match l with
  | [] => false
  | c :: _ => !isWs c

/-- A path that survives the read-side normalisation unchanged: nonempty,
    no surrounding whitespace, no line feed (10), tab (9) or star (42)
    characters, and a slash whenever it has a backslash (so the
    backslash-translation branch of the path cleanup does not fire). -/
def pathStable (f : String) : Bool :=
  headNotWs f.data && headNotWs f.data.reverse &&
  f.data.all (fun c => !(c.toNat = 10) && !(c.toNat = 9) && !(c.toNat = 42)) &&
  (!(f.data.contains '\\') || f.data.contains '/')

/-- Every entry of the mapping has a stable path and a well-formed digest. -/
def goodMapping (m : DigestMapping) : Bool :=
  m.all (fun e => pathStable e.1 && goodHash e.2)

/-- Number of occurrences of a given set-difference result. -/
def countRes (rs : List CompareResult) (r : CompareResult) : Nat :=
  rs.countP (fun x => decide (x = r))

/-- Number of occurrences of a given content-comparison result. -/
def countFile (fs : List CompareFileResult) (r : CompareFileResult) : Nat :=
  fs.countP (fun x => decide (x = r))

/-- Whether a content-comparison result concerns the given path. -/
def aboutPath (p : String) : CompareFileResult → Bool
  | .FileMatches q => decide (q = p)
  | .FileDiffers q _ _ => decide (q = p)

/-- Number of content-comparison results concerning the given path. -/
def countAbout (fs : List CompareFileResult) (p : String) : Nat :=
  fs.countP (aboutPath p)

/-- The `FileAdded` results `compare_hashes` emits: current-only entries in
    iteration order. -/
def addedList (ch lh : DigestMapping) : List CompareResult :=
  (ch.filter (fun e => !(containsKey lh e.1))).map
    (fun e => CompareResult.FileAdded e.1)

/-- The `FileRemoved` results `compare_hashes` emits: loaded-only entries
    in iteration order. -/
def removedList (ch lh : DigestMapping) : List CompareResult :=
  (lh.filter (fun e => !(containsKey ch e.1))).map
    (fun e => CompareResult.FileRemoved e.1)

/-- The current mapping after set reconciliation: entries whose key the
    loaded mapping also has. -/
def chPruned (ch lh : DigestMapping) : DigestMapping :=
  ch.filter (fun e => containsKey lh e.1)

/-- The loaded mapping after set reconciliation. -/
def lhPruned (ch lh : DigestMapping) : DigestMapping :=
  lh.filter (fun e => containsKey ch e.1)

/-- The content-comparison result for one shared entry (the `none` branch
    is unreachable when the pruned keysets agree). -/
def sharedEntry (ch : DigestMapping) (e : String × String) : CompareFileResult :=
  match lookupMap ch e.1 with
  | some cv =>
    if cv = e.2 then .FileMatches e.1 else .FileDiffers e.1 e.2 cv
  | none => .FileMatches e.1

/-- The content-comparison results `compare_hashes` emits. -/
def sharedList (ch lh : DigestMapping) : List CompareFileResult :=
  (lhPruned ch lh).map (sharedEntry (chPruned ch lh))

/-- Modelled from the spec: the length→algorithm table of the claim for the
    all-dash branch — 8→CRC32, 16→XXH64, 32→MD5, 40→SHA-1, 56→SHA-224,
    64→BLAKE3, 96→SHA-384, 128→BLAKE2b — with the branch's `BLAKE3`
    default for any other length. -/
def specDashAlgo (n : Nat) : Algorithm :=
  match n with
  | 8 => .CRC32
  | 16 => .XXH64
  | 32 => .MD5
  | 40 => .SHA1
  | 56 => .SHA2224
  | 64 => .BLAKE3
  | 96 => .SHA2384
  | 128 => .BLAKE2B
  | _ => .BLAKE3

/-- Modelled from the spec: the same length table for the all-hex branch,
    with the nearest-bucket fallback (<12→CRC32, <36→MD5, <52→BLAKE3,
    <110→SHA-384, else BLAKE2b) for lengths outside the table. -/
def specHexAlgo (n : Nat) : Algorithm :=
  match n with
  | 8 => .CRC32
  | 16 => .XXH64
  | 32 => .MD5
  | 40 => .SHA1
  | 56 => .SHA2224
  | 64 => .BLAKE3
  | 96 => .SHA2384
  | 128 => .BLAKE2B
  | n =>
    if n < 12 then .CRC32
    else if n < 36 then .MD5
    else if n < 52 then .BLAKE3
    else if n < 110 then .SHA2384
    else .BLAKE2B

/-! Generic list lemmas used by the development. -/

theorem dropWhile_eq_self_of_none {p : Char → Bool} {l : List Char}
    (h : ∀ a ∈ l, p a = false) : l.dropWhile p = l := by
  cases l with
  | nil => rfl
  | cons a as => simp [List.dropWhile, h a (List.mem_cons_self a as)]

theorem takeWhile_append_stop {p : Char → Bool} {l₁ : List Char} {c : Char}
    {l₂ : List Char} (h₁ : ∀ a ∈ l₁, p a = true) (hc : p c = false) :
    (l₁ ++ c :: l₂).takeWhile p = l₁ := by
  induction l₁ with
  | nil => simp [List.takeWhile, hc]
  | cons a as ih =>
    have ha := h₁ a (List.mem_cons_self a as)
    simp only [List.cons_append, List.takeWhile, ha]
    simpa using ih (fun x hx => h₁ x (List.mem_cons_of_mem a hx))

theorem dropWhile_append_stop {p : Char → Bool} {l₁ : List Char} {c : Char}
    {l₂ : List Char} (h₁ : ∀ a ∈ l₁, p a = true) (hc : p c = false) :
    (l₁ ++ c :: l₂).dropWhile p = c :: l₂ := by
  induction l₁ with
  | nil => simp [List.dropWhile, hc]
  | cons a as ih =>
    have ha := h₁ a (List.mem_cons_self a as)
    simp only [List.cons_append, List.dropWhile, ha]
    exact ih (fun x hx => h₁ x (List.mem_cons_of_mem a hx))

theorem countP_congr_mem {α : Type} {p q : α → Bool} {l : List α}
    (h : ∀ a ∈ l, p a = q a) : l.countP p = l.countP q :=
  List.countP_congr (fun x hx => by rw [h x hx])

theorem countP_eq_one_of_nodup {α : Type} [DecidableEq α] {l : List α}
    (hnd : l.Nodup) {a : α} (ha : a ∈ l) :
    l.countP (fun x => decide (x = a)) = 1 := by
  induction l with
  | nil => cases ha
  | cons b bs ih =>
    rcases List.mem_cons.mp ha with h | h
    · subst h
      have : bs.countP (fun x => decide (x = a)) = 0 :=
        List.countP_eq_zero.mpr (fun x hx => by
          simp only [decide_eq_true_eq]
          exact fun hxa => (List.nodup_cons.mp hnd).1 (hxa ▸ hx))
      simp [List.countP_cons, this]
    · have hba : ¬ (b = a) := fun hba =>
        (List.nodup_cons.mp hnd).1 (hba ▸ h)
      have := ih (List.nodup_cons.mp hnd).2 h
      simp [List.countP_cons, this, hba]

theorem countP_eq_zero_of_not_mem {α : Type} [DecidableEq α] {l : List α}
    {a : α} (ha : a ∉ l) :
    l.countP (fun x => decide (x = a)) = 0 :=
  List.countP_eq_zero.mpr (fun x hx => by
    simp only [decide_eq_true_eq]
    exact fun hxa => ha (hxa ▸ hx))

theorem map_fst_filter_key {p : String → Bool} {l : DigestMapping} :
    (l.filter (fun e => p e.1)).map (fun e => e.1) =
      (l.map (fun e => e.1)).filter p := by
  induction l with
  | nil => rfl
  | cons e es ih =>
    by_cases h : p e.1 <;> simp [List.filter, h, ih]

/-! Facts about the key order `strLt`. -/

theorem strLt_irrefl (l : List Char) : strLt l l = false := by
  induction l with
  | nil => rfl
  | cons a as ih => simp [strLt, ih]

theorem strLt_asymm {a b : List Char} (h : strLt a b = true) :
    strLt b a = false := by
  induction a generalizing b with
  | nil =>
    cases b with
    | nil => simpa [strLt] using h
    | cons x xs => simp [strLt]
  | cons x xs ih =>
    cases b with
    | nil => simp [strLt] at h
    | cons y ys =>
      simp only [strLt, Bool.or_eq_true, Bool.and_eq_true, decide_eq_true_eq]
        at h
      apply Bool.eq_false_iff.mpr
      intro hcon
      simp only [strLt, Bool.or_eq_true, Bool.and_eq_true, decide_eq_true_eq]
        at hcon
      rcases h with h | ⟨hxy, hs⟩ <;> rcases hcon with hc | ⟨hyx, hs'⟩
      · omega
      · omega
      · omega
      · rw [ih hs] at hs'
        exact Bool.false_ne_true hs'

theorem ne_of_strLt {a b : String} (h : strLt a.data b.data = true) :
    a ≠ b := by
  intro hab
  rw [hab, strLt_irrefl] at h
  exact Bool.false_ne_true h

/-! Facts about `DigestMapping` operations. -/

theorem keysOf_nodup {m : DigestMapping} (hwf : WFMap m) :
    (keysOf m).Nodup := by
  unfold keysOf
  exact List.Pairwise.map _ (fun a b hab => ne_of_strLt hab) hwf

theorem lookup_isSome_iff {m : DigestMapping} {k : String} :
    (lookupMap m k).isSome = true ↔ k ∈ keysOf m := by
  induction m with
  | nil => simp [lookupMap, keysOf]
  | cons e es ih =>
    by_cases h : e.1 = k
    · simp [lookupMap, h, keysOf]
    · simp only [lookupMap, if_neg h, keysOf, List.map_cons, List.mem_cons]
      rw [ih]
      constructor
      · intro hm; exact Or.inr hm
      · rintro (hm | hm)
        · exact absurd hm.symm h
        · exact hm

theorem containsKey_iff {m : DigestMapping} {k : String} :
    containsKey m k = true ↔ k ∈ keysOf m := by
  unfold containsKey; exact lookup_isSome_iff

theorem containsKey_of_mem {m : DigestMapping} {e : String × String}
    (h : e ∈ m) : containsKey m e.1 = true :=
  containsKey_iff.mpr (List.mem_map.mpr ⟨e, h, rfl⟩)

theorem lookup_eq_of_mem {m : DigestMapping} (hnd : (keysOf m).Nodup)
    {e : String × String} (h : e ∈ m) : lookupMap m e.1 = some e.2 := by
  induction m with
  | nil => cases h
  | cons x xs ih =>
    have hnd' := hnd
    rw [keysOf, List.map_cons] at hnd'
    have hcons := List.nodup_cons.mp hnd'
    rcases List.mem_cons.mp h with h | h
    · subst h; simp [lookupMap]
    · have hx : x.1 ≠ e.1 := by
        intro hk
        exact hcons.1 (by rw [hk]; exact List.mem_map.mpr ⟨e, h, rfl⟩)
      simp [lookupMap, hx, ih hcons.2 h]

theorem lookup_filter_key {p : String → Bool} {m : DigestMapping}
    {k : String} :
    lookupMap (m.filter (fun e => p e.1)) k =
      if p k then lookupMap m k else none := by
  induction m with
  | nil => simp [lookupMap]
  | cons e es ih =>
    by_cases hp : p e.1
    · by_cases hk : e.1 = k
      · subst hk; simp [List.filter, hp, lookupMap, ih]
      · simp [List.filter, hp, lookupMap, hk, ih]
    · by_cases hk : e.1 = k
      · subst hk
        simp only [List.filter, (by simpa using hp : p e.1 = false), ih,
          lookupMap]
        simp [hp]
      · simp [List.filter, (by simpa using hp : p e.1 = false), lookupMap,
          hk, ih]

theorem insertMap_append {acc : DigestMapping} {k : String} {v : String}
    (h : ∀ e ∈ acc, strLt e.1.data k.data = true) :
    insertMap acc k v = acc ++ [(k, v)] := by
  induction acc with
  | nil => rfl
  | cons e es ih =>
    have he := h e (List.mem_cons_self e es)
    have h1 : strLt k.data e.1.data = false := strLt_asymm he
    have h2 : k ≠ e.1 := (ne_of_strLt he).symm
    simp [insertMap, h1, h2, ih (fun x hx => h x (List.mem_cons_of_mem e hx))]

/-! Structure of `compare_hashes` on well-formed inputs. -/

theorem mem_keys_filter {m : DigestMapping} {p : String → Bool} {k : String} :
    k ∈ (m.filter (fun e => p e.1)).map (fun e => e.1) ↔
      k ∈ keysOf m ∧ p k = true := by
  rw [map_fst_filter_key]
  simp [List.mem_filter, keysOf]

theorem mem_prune_keys {ch lh : DigestMapping} {k : String} :
    k ∈ ((ch.filter (fun e => !(containsKey lh e.1))).map (fun e => e.1) ++
         (lh.filter (fun e => !(containsKey ch e.1))).map (fun e => e.1)) ↔
      (k ∈ keysOf ch ∧ containsKey lh k = false) ∨
      (k ∈ keysOf lh ∧ containsKey ch k = false) := by
  rw [List.mem_append,
    @mem_keys_filter ch (fun k => !(containsKey lh k)) k,
    @mem_keys_filter lh (fun k => !(containsKey ch k)) k]
  simp [Bool.not_eq_true']

theorem any_key_eq_mem {ks : List String} {k : String} :
    (ks.any (fun x => decide (x = k))) = true ↔ k ∈ ks := by
  rw [List.any_eq_true]
  constructor
  · rintro ⟨x, hx, hxe⟩
    simp only [decide_eq_true_eq] at hxe
    exact hxe ▸ hx
  · intro hx; exact ⟨k, hx, by simp⟩

theorem prune_cond_ch {ch lh : DigestMapping} {e : String × String}
    (he : e ∈ ch) :
    (!(((ch.filter (fun e => !(containsKey lh e.1))).map (fun e => e.1) ++
        (lh.filter (fun e => !(containsKey ch e.1))).map (fun e => e.1)).any
          (fun k => decide (k = e.1)))) = containsKey lh e.1 := by
  have hch : containsKey ch e.1 = true := containsKey_of_mem he
  by_cases hc : containsKey lh e.1 = true
  · have hnot : e.1 ∉ ((ch.filter (fun e => !(containsKey lh e.1))).map
        (fun e => e.1) ++
        (lh.filter (fun e => !(containsKey ch e.1))).map (fun e => e.1)) := by
      intro hm
      rcases mem_prune_keys.mp hm with ⟨_, hf⟩ | ⟨_, hf⟩
      · rw [hc] at hf; simp at hf
      · rw [hch] at hf; simp at hf
    have hfalse : (((ch.filter (fun e => !(containsKey lh e.1))).map
        (fun e => e.1) ++
        (lh.filter (fun e => !(containsKey ch e.1))).map (fun e => e.1)).any
          (fun k => decide (k = e.1))) = false := by
      rcases hb : (((ch.filter (fun e => !(containsKey lh e.1))).map
          (fun e => e.1) ++
          (lh.filter (fun e => !(containsKey ch e.1))).map (fun e => e.1)).any
            (fun k => decide (k = e.1))) with _ | _
      · rfl
      · exact absurd (any_key_eq_mem.mp hb) hnot
    rw [hc, hfalse]; rfl
  · have hc' : containsKey lh e.1 = false := Bool.eq_false_iff.mpr hc
    have hm : e.1 ∈ ((ch.filter (fun e => !(containsKey lh e.1))).map
        (fun e => e.1) ++
        (lh.filter (fun e => !(containsKey ch e.1))).map (fun e => e.1)) :=
      mem_prune_keys.mpr (Or.inl ⟨List.mem_map.mpr ⟨e, he, rfl⟩, hc'⟩)
    rw [hc', any_key_eq_mem.mpr hm]; rfl

theorem prune_cond_lh {ch lh : DigestMapping} {e : String × String}
    (he : e ∈ lh) :
    (!(((ch.filter (fun e => !(containsKey lh e.1))).map (fun e => e.1) ++
        (lh.filter (fun e => !(containsKey ch e.1))).map (fun e => e.1)).any
          (fun k => decide (k = e.1)))) = containsKey ch e.1 := by
  have hlh : containsKey lh e.1 = true := containsKey_of_mem he
  by_cases hc : containsKey ch e.1 = true
  · have hnot : e.1 ∉ ((ch.filter (fun e => !(containsKey lh e.1))).map
        (fun e => e.1) ++
        (lh.filter (fun e => !(containsKey ch e.1))).map (fun e => e.1)) := by
      intro hm
      rcases mem_prune_keys.mp hm with ⟨_, hf⟩ | ⟨_, hf⟩
      · rw [hlh] at hf; simp at hf
      · rw [hc] at hf; simp at hf
    have hfalse : (((ch.filter (fun e => !(containsKey lh e.1))).map
        (fun e => e.1) ++
        (lh.filter (fun e => !(containsKey ch e.1))).map (fun e => e.1)).any
          (fun k => decide (k = e.1))) = false := by
      rcases hb : (((ch.filter (fun e => !(containsKey lh e.1))).map
          (fun e => e.1) ++
          (lh.filter (fun e => !(containsKey ch e.1))).map (fun e => e.1)).any
            (fun k => decide (k = e.1))) with _ | _
      · rfl
      · exact absurd (any_key_eq_mem.mp hb) hnot
    rw [hc, hfalse]; rfl
  · have hc' : containsKey ch e.1 = false := Bool.eq_false_iff.mpr hc
    have hm : e.1 ∈ ((ch.filter (fun e => !(containsKey lh e.1))).map
        (fun e => e.1) ++
        (lh.filter (fun e => !(containsKey ch e.1))).map (fun e => e.1)) :=
      mem_prune_keys.mpr (Or.inr ⟨List.mem_map.mpr ⟨e, he, rfl⟩, hc'⟩)
    rw [hc', any_key_eq_mem.mpr hm]; rfl

theorem process_ignores_eq (ch lh : DigestMapping) :
    process_ignores (fun key _ other => !(containsKey other key))
      CompareResult.FileAdded CompareResult.FileRemoved ch lh =
      (addedList ch lh ++ removedList ch lh, chPruned ch lh, lhPruned ch lh) := by
  unfold process_ignores process_ignores_iter addedList removedList chPruned
    lhPruned
  simp only [Prod.mk.injEq]
  refine ⟨trivial, ?_, ?_⟩
  · exact List.filter_congr (fun e he => prune_cond_ch he)
  · exact List.filter_congr (fun e he => prune_cond_lh he)

theorem pruned_length_eq {ch lh : DigestMapping} (hwfc : WFMap ch)
    (hwfl : WFMap lh) :
    (chPruned ch lh).length = (lhPruned ch lh).length := by
  have h1 : keysOf (chPruned ch lh) =
      (keysOf ch).filter (fun k => containsKey lh k) := map_fst_filter_key
  have h2 : keysOf (lhPruned ch lh) =
      (keysOf lh).filter (fun k => containsKey ch k) := map_fst_filter_key
  have hn1 : ((keysOf ch).filter (fun k => containsKey lh k)).Nodup :=
    (keysOf_nodup hwfc).filter _
  have hn2 : ((keysOf lh).filter (fun k => containsKey ch k)).Nodup :=
    (keysOf_nodup hwfl).filter _
  have hperm : List.Perm ((keysOf ch).filter (fun k => containsKey lh k))
      ((keysOf lh).filter (fun k => containsKey ch k)) := by
    refine (List.perm_ext_iff_of_nodup hn1 hn2).mpr ?_
    intro a
    simp only [List.mem_filter]
    constructor
    · rintro ⟨ha, hc⟩; exact ⟨containsKey_iff.mp hc, containsKey_iff.mpr ha⟩
    · rintro ⟨ha, hc⟩; exact ⟨containsKey_iff.mp hc, containsKey_iff.mpr ha⟩
  calc (chPruned ch lh).length
      = (keysOf (chPruned ch lh)).length := (List.length_map _ _).symm
    _ = (keysOf (lhPruned ch lh)).length := by rw [h1, h2]; exact hperm.length_eq
    _ = (lhPruned ch lh).length := List.length_map _ _

theorem compareLoop_ok {ch : DigestMapping} {l : List (String × String)}
    (h : ∀ e ∈ l, (lookupMap ch e.1).isSome = true) :
    compareLoop ch l = .ok (l.map (sharedEntry ch)) := by
  induction l with
  | nil => rfl
  | cons e es ih =>
    obtain ⟨k, v⟩ := e
    have he := h (k, v) (List.mem_cons_self (k, v) es)
    obtain ⟨cv, hcv⟩ := Option.isSome_iff_exists.mp he
    rw [compareLoop, hcv,
      ih (fun x hx => h x (List.mem_cons_of_mem (k, v) hx))]
    simp [sharedEntry, hcv]

theorem compare_hashes_ok {ch lh : DigestMapping} (hwfc : WFMap ch)
    (hwfl : WFMap lh) {c0 l0 : String × String} (hc : ch.head? = some c0)
    (hl : lh.head? = some l0) (hlen : c0.2.length = l0.2.length) :
    compare_hashes ch lh =
      .ok (.ok (addedList ch lh ++ removedList ch lh, sharedList ch lh)) := by
  cases ch with
  | nil => simp at hc
  | cons a as =>
  cases lh with
  | nil => simp at hl
  | cons b bs =>
  rw [List.head?_cons] at hc hl
  injection hc with hc2
  injection hl with hl2
  subst hc2
  subst hl2
  have hpre : ∀ e ∈ lhPruned (a :: as) (b :: bs),
      (lookupMap (chPruned (a :: as) (b :: bs)) e.1).isSome = true := by
    intro e he
    have hmem := List.mem_filter.mp he
    unfold chPruned
    rw [lookup_filter_key, if_pos (containsKey_of_mem hmem.1)]
    exact hmem.2
  have hassert : ¬ ((chPruned (a :: as) (b :: bs)).length ≠
      (lhPruned (a :: as) (b :: bs)).length) :=
    fun hne => hne (pruned_length_eq hwfc hwfl)
  unfold compare_hashes
  simp only [List.head?_cons]
  rw [if_neg (fun hne => hne hlen)]
  simp only [process_ignores_eq]
  rw [if_neg hassert]
  by_cases hempty : (chPruned (a :: as) (b :: bs)).isEmpty = true
  · have h1 : chPruned (a :: as) (b :: bs) = [] := List.isEmpty_iff.mp hempty
    have h2 : lhPruned (a :: as) (b :: bs) = [] := by
      have hlen2 := pruned_length_eq hwfc hwfl
      rw [h1] at hlen2
      exact List.eq_nil_of_length_eq_zero hlen2.symm
    rw [if_pos hempty]
    simp [sharedList, h2]
  · rw [if_neg hempty, compareLoop_ok hpre]
    rfl

theorem compare_hashes_len_mismatch (ch lh : DigestMapping)
    (c0 l0 : String × String) (hc : ch.head? = some c0)
    (hl : lh.head? = some l0) (hne : c0.2.length ≠ l0.2.length) :
    compare_hashes ch lh =
      .ok (.error (.HashLengthDiffers l0.2.length c0.2.length)) := by
  cases ch with
  | nil => simp at hc
  | cons a as =>
  cases lh with
  | nil => simp at hl
  | cons b bs =>
  rw [List.head?_cons] at hc hl
  injection hc with hc2
  injection hl with hl2
  subst hc2
  subst hl2
  unfold compare_hashes
  simp only [List.head?_cons]
  rw [if_pos hne]

/-! Counting lemmas for the diff classifications. -/

theorem countRes_append {a b : List CompareResult} {r : CompareResult} :
    countRes (a ++ b) r = countRes a r + countRes b r :=
  List.countP_append ..

theorem countRes_added_map {l : DigestMapping} {p : String} :
    countRes (l.map (fun e => CompareResult.FileAdded e.1)) (.FileAdded p) =
      l.countP (fun e => decide (e.1 = p)) := by
  unfold countRes
  rw [List.countP_map]
  exact countP_congr_mem (fun e _ => by simp)

theorem countRes_removed_map {l : DigestMapping} {p : String} :
    countRes (l.map (fun e => CompareResult.FileRemoved e.1)) (.FileRemoved p) =
      l.countP (fun e => decide (e.1 = p)) := by
  unfold countRes
  rw [List.countP_map]
  exact countP_congr_mem (fun e _ => by simp)

theorem countRes_map_ne {l : DigestMapping} {g : String × String → CompareResult}
    {r : CompareResult} (h : ∀ e ∈ l, (g e = r) → False) :
    countRes (l.map g) r = 0 := by
  unfold countRes
  rw [List.countP_map]
  exact List.countP_eq_zero.mpr (fun e he => by
    simp only [Function.comp, decide_eq_true_eq]
    exact h e he)

theorem countP_key_filter {m : DigestMapping} {q : String → Bool} {p : String}
    (hnd : (keysOf m).Nodup) :
    (m.filter (fun e => q e.1)).countP (fun e => decide (e.1 = p)) =
      if p ∈ keysOf m ∧ q p = true then 1 else 0 := by
  have h1 : (m.filter (fun e => q e.1)).countP (fun e => decide (e.1 = p)) =
      ((keysOf m).filter q).countP (fun k => decide (k = p)) := by
    unfold keysOf
    rw [← map_fst_filter_key, List.countP_map]
    exact countP_congr_mem (fun e _ => rfl)
  rw [h1]
  by_cases hp : p ∈ keysOf m ∧ q p = true
  · rw [if_pos hp]
    exact countP_eq_one_of_nodup (hnd.filter q)
      (List.mem_filter.mpr ⟨hp.1, hp.2⟩)
  · rw [if_neg hp]
    apply countP_eq_zero_of_not_mem
    intro hmem
    have hm := List.mem_filter.mp hmem
    exact hp ⟨hm.1, hm.2⟩

theorem sharedEntry_shape (ch : DigestMapping) (e : String × String) :
    sharedEntry ch e = .FileMatches e.1 ∨
      ∃ w n, sharedEntry ch e = .FileDiffers e.1 w n := by
  unfold sharedEntry
  cases h : lookupMap ch e.1 with
  | none => exact Or.inl rfl
  | some cv =>
    by_cases hc : cv = e.2
    · exact Or.inl (by simp [hc])
    · exact Or.inr ⟨e.2, cv, by simp [hc]⟩

theorem aboutPath_sharedEntry (ch : DigestMapping) (p : String)
    (e : String × String) :
    aboutPath p (sharedEntry ch e) = decide (e.1 = p) := by
  rcases sharedEntry_shape ch e with h | ⟨w, n, h⟩ <;> rw [h] <;> rfl

theorem countAbout_shared {ch lh : DigestMapping} (hwfl : WFMap lh)
    {p : String} :
    countAbout (sharedList ch lh) p =
      if p ∈ keysOf lh ∧ containsKey ch p = true then 1 else 0 := by
  unfold countAbout sharedList
  rw [List.countP_map]
  have hcg : List.countP (aboutPath p ∘ sharedEntry (chPruned ch lh))
      (lhPruned ch lh) =
      List.countP (fun e => decide (e.1 = p)) (lhPruned ch lh) :=
    countP_congr_mem (fun e _ => aboutPath_sharedEntry (chPruned ch lh) p e)
  rw [hcg]
  unfold lhPruned
  exact countP_key_filter (keysOf_nodup hwfl)

theorem sharedEntry_at_key {ch lh : DigestMapping} (hwfl : WFMap lh)
    {p cv lv : String} (hcv : lookupMap ch p = some cv)
    (hlv : lookupMap lh p = some lv) {e : String × String}
    (he : e ∈ lhPruned ch lh) (hep : e.1 = p) :
    sharedEntry (chPruned ch lh) e =
      (if cv = lv then CompareFileResult.FileMatches p
       else CompareFileResult.FileDiffers p lv cv) := by
  have hlhp : containsKey lh p = true := by unfold containsKey; rw [hlv]; rfl
  have hmem := List.mem_filter.mp he
  have helv : e.2 = lv := by
    have hl2 := lookup_eq_of_mem (keysOf_nodup hwfl) hmem.1
    rw [hep, hlv] at hl2
    exact (Option.some.inj hl2).symm
  have hlookp : lookupMap (chPruned ch lh) p = some cv := by
    unfold chPruned
    rw [lookup_filter_key, if_pos hlhp, hcv]
  unfold sharedEntry
  rw [hep, helv, hlookp]

theorem countFile_shared {ch lh : DigestMapping} (hwfl : WFMap lh)
    {p cv lv : String} (hcv : lookupMap ch p = some cv)
    (hlv : lookupMap lh p = some lv) :
    (cv = lv → countFile (sharedList ch lh) (.FileMatches p) = 1) ∧
    (cv ≠ lv → countFile (sharedList ch lh) (.FileDiffers p lv cv) = 1) := by
  have hchp : containsKey ch p = true := by unfold containsKey; rw [hcv]; rfl
  have hlhp : containsKey lh p = true := by unfold containsKey; rw [hlv]; rfl
  have hplh : p ∈ keysOf lh := containsKey_iff.mp hlhp
  have hone : List.countP (fun e => decide (e.1 = p)) (lhPruned ch lh) = 1 := by
    unfold lhPruned
    rw [countP_key_filter (keysOf_nodup hwfl)]
    exact if_pos ⟨hplh, hchp⟩
  constructor
  · intro hcl
    unfold countFile sharedList
    rw [List.countP_map]
    have hcg : List.countP
        ((fun x => decide (x = CompareFileResult.FileMatches p)) ∘
          sharedEntry (chPruned ch lh)) (lhPruned ch lh) =
        List.countP (fun e => decide (e.1 = p)) (lhPruned ch lh) := by
      apply countP_congr_mem
      intro e he
      simp only [Function.comp]
      by_cases hep : e.1 = p
      · rw [sharedEntry_at_key hwfl hcv hlv he hep, if_pos hcl]
        simp [hep]
      · rcases sharedEntry_shape (chPruned ch lh) e with h | ⟨w, n, h⟩ <;>
          simp [h, hep]
    rw [hcg, hone]
  · intro hcl
    unfold countFile sharedList
    rw [List.countP_map]
    have hcg : List.countP
        ((fun x => decide (x = CompareFileResult.FileDiffers p lv cv)) ∘
          sharedEntry (chPruned ch lh)) (lhPruned ch lh) =
        List.countP (fun e => decide (e.1 = p)) (lhPruned ch lh) := by
      apply countP_congr_mem
      intro e he
      simp only [Function.comp]
      by_cases hep : e.1 = p
      · rw [sharedEntry_at_key hwfl hcv hlv he hep, if_neg hcl]
        simp [hep]
      · rcases sharedEntry_shape (chPruned ch lh) e with h | ⟨w, n, h⟩ <;>
          simp [h, hep]
    rw [hcg, hone]

/-! Claim theorems for the diff engine. -/

/-- C1: for every pair of well-formed digest mappings whose sampled digest
    lengths agree, `compare_hashes` classifies every path of the union of
    the key sets exactly once — current-only paths as exactly one
    `FileAdded`, loaded-only paths as exactly one `FileRemoved`, shared
    paths as exactly one content result (`FileMatches` when the digests are
    equal, `FileDiffers` otherwise), never an `FileIgnored`, and paths in
    neither mapping nowhere. -/
theorem c1_diff_exactly_once (ch lh : DigestMapping) (hwfc : WFMap ch)
    (hwfl : WFMap lh) (c0 l0 : String × String) (hc : ch.head? = some c0)
    (hl : lh.head? = some l0) (hlen : c0.2.length = l0.2.length)
    (rs : List CompareResult) (fs : List CompareFileResult)
    (heq : compare_hashes ch lh = .ok (.ok (rs, fs))) :
    (∀ p, containsKey ch p = true → containsKey lh p = false →
      countRes rs (.FileAdded p) = 1 ∧ countRes rs (.FileRemoved p) = 0 ∧
      countRes rs (.FileIgnored p) = 0 ∧ countAbout fs p = 0) ∧
    (∀ p, containsKey ch p = false → containsKey lh p = true →
      countRes rs (.FileAdded p) = 0 ∧ countRes rs (.FileRemoved p) = 1 ∧
      countRes rs (.FileIgnored p) = 0 ∧ countAbout fs p = 0) ∧
    (∀ p cv lv, lookupMap ch p = some cv → lookupMap lh p = some lv →
      countRes rs (.FileAdded p) = 0 ∧ countRes rs (.FileRemoved p) = 0 ∧
      countRes rs (.FileIgnored p) = 0 ∧ countAbout fs p = 1 ∧
      (cv = lv → countFile fs (.FileMatches p) = 1) ∧
      (cv ≠ lv → countFile fs (.FileDiffers p lv cv) = 1)) ∧
    (∀ p, containsKey ch p = false → containsKey lh p = false →
      countRes rs (.FileAdded p) = 0 ∧ countRes rs (.FileRemoved p) = 0 ∧
      countAbout fs p = 0) := by
  rw [compare_hashes_ok hwfc hwfl hc hl hlen] at heq
  simp only [RustRes.ok.injEq, Except.ok.injEq, Prod.mk.injEq] at heq
  obtain ⟨hrs, hfs⟩ := heq
  subst hrs
  subst hfs
  have hAdd : ∀ p, countRes (addedList ch lh) (.FileAdded p) =
      if p ∈ keysOf ch ∧ containsKey lh p = false then 1 else 0 := by
    intro p
    unfold addedList
    rw [countRes_added_map,
      @countP_key_filter ch (fun k => !(containsKey lh k)) p
        (keysOf_nodup hwfc)]
    by_cases hp : p ∈ keysOf ch ∧ containsKey lh p = false
    · rw [if_pos ⟨hp.1, by rw [hp.2]; rfl⟩, if_pos hp]
    · rw [if_neg ?_, if_neg hp]
      intro hcon
      exact hp ⟨hcon.1, by
        have := hcon.2
        rcases hb : containsKey lh p with _ | _
        · rfl
        · rw [hb] at this; simp at this⟩
  have hRem : ∀ p, countRes (removedList ch lh) (.FileRemoved p) =
      if p ∈ keysOf lh ∧ containsKey ch p = false then 1 else 0 := by
    intro p
    unfold removedList
    rw [countRes_removed_map,
      @countP_key_filter lh (fun k => !(containsKey ch k)) p
        (keysOf_nodup hwfl)]
    by_cases hp : p ∈ keysOf lh ∧ containsKey ch p = false
    · rw [if_pos ⟨hp.1, by rw [hp.2]; rfl⟩, if_pos hp]
    · rw [if_neg ?_, if_neg hp]
      intro hcon
      exact hp ⟨hcon.1, by
        have := hcon.2
        rcases hb : containsKey ch p with _ | _
        · rfl
        · rw [hb] at this; simp at this⟩
  have hAddRem0 : ∀ p, countRes (addedList ch lh) (.FileRemoved p) = 0 := by
    intro p
    unfold addedList
    exact countRes_map_ne (fun e _ h => by cases h)
  have hRemAdd0 : ∀ p, countRes (removedList ch lh) (.FileAdded p) = 0 := by
    intro p
    unfold removedList
    exact countRes_map_ne (fun e _ h => by cases h)
  have hIgn0 : ∀ p, countRes (addedList ch lh ++ removedList ch lh)
      (.FileIgnored p) = 0 := by
    intro p
    rw [countRes_append]
    have h1 : countRes (addedList ch lh) (.FileIgnored p) = 0 := by
      unfold addedList
      exact countRes_map_ne (fun e _ h => by cases h)
    have h2 : countRes (removedList ch lh) (.FileIgnored p) = 0 := by
      unfold removedList
      exact countRes_map_ne (fun e _ h => by cases h)
    rw [h1, h2]
  refine ⟨?_, ?_, ?_, ?_⟩
  · intro p h1 h2
    have hin : p ∈ keysOf ch := containsKey_iff.mp h1
    have hnotlh : p ∉ keysOf lh := fun hm => by
      rw [containsKey_iff.mpr hm] at h2; cases h2
    refine ⟨?_, ?_, hIgn0 p, ?_⟩
    · rw [countRes_append, hAdd p, if_pos ⟨hin, h2⟩, hRemAdd0 p]
    · rw [countRes_append, hAddRem0 p, hRem p,
        if_neg (fun hcon => hnotlh hcon.1)]
    · rw [countAbout_shared hwfl, if_neg (fun hcon => hnotlh hcon.1)]
  · intro p h1 h2
    have hin : p ∈ keysOf lh := containsKey_iff.mp h2
    have hnotch : p ∉ keysOf ch := fun hm => by
      rw [containsKey_iff.mpr hm] at h1; cases h1
    refine ⟨?_, ?_, hIgn0 p, ?_⟩
    · rw [countRes_append, hAdd p, if_neg (fun hcon => hnotch hcon.1),
        hRemAdd0 p]
    · rw [countRes_append, hAddRem0 p, hRem p, if_pos ⟨hin, h1⟩]
    · rw [countAbout_shared hwfl, if_neg (fun hcon => by
        rw [hcon.2] at h1; cases h1)]
  · intro p cv lv hcv hlv
    have hchp : containsKey ch p = true := by
      unfold containsKey; rw [hcv]; rfl
    have hlhp : containsKey lh p = true := by
      unfold containsKey; rw [hlv]; rfl
    have hinlh : p ∈ keysOf lh := containsKey_iff.mp hlhp
    refine ⟨?_, ?_, hIgn0 p, ?_, (countFile_shared hwfl hcv hlv).1,
      (countFile_shared hwfl hcv hlv).2⟩
    · rw [countRes_append, hAdd p, if_neg (fun hcon => by
        rw [hlhp] at hcon; cases hcon.2), hRemAdd0 p]
    · rw [countRes_append, hAddRem0 p, hRem p, if_neg (fun hcon => by
        rw [hchp] at hcon; cases hcon.2)]
    · rw [countAbout_shared hwfl, if_pos ⟨hinlh, hchp⟩]
  · intro p h1 h2
    have hnotch : p ∉ keysOf ch := fun hm => by
      rw [containsKey_iff.mpr hm] at h1; cases h1
    have hnotlh : p ∉ keysOf lh := fun hm => by
      rw [containsKey_iff.mpr hm] at h2; cases h2
    refine ⟨?_, ?_, ?_⟩
    · rw [countRes_append, hAdd p, if_neg (fun hcon => hnotch hcon.1),
        hRemAdd0 p]
    · rw [countRes_append, hAddRem0 p, hRem p,
        if_neg (fun hcon => hnotlh hcon.1)]
    · rw [countAbout_shared hwfl, if_neg (fun hcon => hnotlh hcon.1)]

/-- Witness for C1 at a concrete pair of mappings: current has `a`, `b`,
    loaded has `a`, `c`; `b` is counted once as added, `c` once as removed,
    `a` once as a match. -/
theorem c1_diff_exactly_once_witness :
    compare_hashes [("a", "AB"), ("b", "BB")] [("a", "AB"), ("c", "CC")] =
      .ok (.ok ([.FileAdded "b", .FileRemoved "c"], [.FileMatches "a"])) ∧
    countRes [CompareResult.FileAdded "b", CompareResult.FileRemoved "c"]
      (.FileAdded "b") = 1 ∧
    countRes [CompareResult.FileAdded "b", CompareResult.FileRemoved "c"]
      (.FileRemoved "c") = 1 ∧
    countFile [CompareFileResult.FileMatches "a"] (.FileMatches "a") = 1 := by
  have h := c1_diff_exactly_once [("a", "AB"), ("b", "BB")]
    [("a", "AB"), ("c", "CC")] (by decide) (by decide) ("a", "AB") ("a", "AB")
    rfl rfl rfl [.FileAdded "b", .FileRemoved "c"] [.FileMatches "a"] rfl
  refine ⟨rfl, ?_, ?_, ?_⟩
  · exact ((h.1 "b" (by decide) (by decide)).1)
  · exact ((h.2.1 "c" (by decide) (by decide)).2.1)
  · exact ((h.2.2.1 "a" "AB" "AB" rfl rfl).2.2.2.2.1 rfl)

/-- C4: when the sampled digest lengths of the two mappings differ,
    `compare_hashes` returns the `HashLengthDiffers` error carrying the
    loaded length as `previous_len` and the current length as
    `current_len`, and produces no classification lists at all. -/
theorem c4_length_mismatch (ch lh : DigestMapping) (c0 l0 : String × String)
    (hc : ch.head? = some c0) (hl : lh.head? = some l0)
    (hne : c0.2.length ≠ l0.2.length) :
    compare_hashes ch lh =
      .ok (.error (.HashLengthDiffers l0.2.length c0.2.length)) :=
  compare_hashes_len_mismatch ch lh c0 l0 hc hl hne

/-- Witness for C4 with a 64-character current digest and a 128-character
    loaded digest, the pairing named by the spec. -/
theorem c4_length_mismatch_witness :
    compare_hashes
      [("a", "AAAAAAAAAAAAAAAAAAAAAAAAAAAAAAAAAAAAAAAAAAAAAAAAAAAAAAAAAAAAAAAA")]
      [("a", "BBBBBBBBBBBBBBBBBBBBBBBBBBBBBBBBBBBBBBBBBBBBBBBBBBBBBBBBBBBBBBBBBBBBBBBBBBBBBBBBBBBBBBBBBBBBBBBBBBBBBBBBBBBBBBBBBBBBBBBBBBBBBBBB")] =
      .ok (.error (.HashLengthDiffers 128 64)) :=
  c4_length_mismatch
    [("a", "AAAAAAAAAAAAAAAAAAAAAAAAAAAAAAAAAAAAAAAAAAAAAAAAAAAAAAAAAAAAAAAA")]
    [("a", "BBBBBBBBBBBBBBBBBBBBBBBBBBBBBBBBBBBBBBBBBBBBBBBBBBBBBBBBBBBBBBBBBBBBBBBBBBBBBBBBBBBBBBBBBBBBBBBBBBBBBBBBBBBBBBBBBBBBBBBBBBBBBBBB")]
    ("a", "AAAAAAAAAAAAAAAAAAAAAAAAAAAAAAAAAAAAAAAAAAAAAAAAAAAAAAAAAAAAAAAA")
    ("a", "BBBBBBBBBBBBBBBBBBBBBBBBBBBBBBBBBBBBBBBBBBBBBBBBBBBBBBBBBBBBBBBBBBBBBBBBBBBBBBBBBBBBBBBBBBBBBBBBBBBBBBBBBBBBBBBBBBBBBBBBBBBBBBBB")
    rfl rfl (by decide)

/-- C8 counterexample: the claim quantifies over every `DigestMapping`, but
    comparing the empty mapping against itself panics (the unconditional
    `iter().next().unwrap()` sampling), instead of yielding the claimed
    empty classification. -/
theorem c8_self_empty_panics :
    compare_hashes ([] : DigestMapping) ([] : DigestMapping) = .panicked :=
  rfl

/-- C8 amended: for every nonempty well-formed mapping, comparing it
    against itself yields no `FileAdded`, `FileRemoved` or `FileDiffers`
    results and exactly one `FileMatches` per path of the mapping. -/
theorem c8_self_compare (m : DigestMapping) (hwf : WFMap m)
    (e0 : String × String) (h0 : m.head? = some e0) :
    compare_hashes m m =
      .ok (.ok ([], (keysOf m).map CompareFileResult.FileMatches)) ∧
    (∀ p, containsKey m p = true →
      countFile ((keysOf m).map CompareFileResult.FileMatches)
        (.FileMatches p) = 1) := by
  have hself : ∀ e ∈ m, containsKey m e.1 = true :=
    fun e he => containsKey_of_mem he
  have hchp : chPruned m m = m := by
    unfold chPruned
    exact List.filter_eq_self.mpr hself
  have hlhp : lhPruned m m = m := by
    unfold lhPruned
    exact List.filter_eq_self.mpr hself
  have hadded : addedList m m = [] := by
    unfold addedList
    rw [List.filter_eq_nil_iff.mpr (fun e he => by simp [hself e he])]
    rfl
  have hremoved : removedList m m = [] := by
    unfold removedList
    rw [List.filter_eq_nil_iff.mpr (fun e he => by simp [hself e he])]
    rfl
  have hsharedm : sharedList m m = (keysOf m).map CompareFileResult.FileMatches := by
    unfold sharedList keysOf
    rw [hchp, hlhp, List.map_map]
    apply List.map_congr_left
    intro e he
    have hlook := lookup_eq_of_mem (keysOf_nodup hwf) he
    simp [Function.comp, sharedEntry, hlook]
  constructor
  · rw [compare_hashes_ok hwf hwf h0 h0 rfl, hadded, hremoved, hsharedm]
    rfl
  · intro p hp
    unfold countFile
    rw [List.countP_map]
    have hcg : List.countP
        ((fun x => decide (x = CompareFileResult.FileMatches p)) ∘
          CompareFileResult.FileMatches) (keysOf m) =
        List.countP (fun k => decide (k = p)) (keysOf m) := by
      apply countP_congr_mem
      intro k _
      simp [Function.comp]
    rw [hcg]
    exact countP_eq_one_of_nodup (keysOf_nodup hwf) (containsKey_iff.mp hp)

/-- Witness for the amended C8 at a concrete two-entry mapping. -/
theorem c8_self_compare_witness :
    compare_hashes [("a", "AB"), ("b", "BB")] [("a", "AB"), ("b", "BB")] =
      .ok (.ok ([], [.FileMatches "a", .FileMatches "b"])) ∧
    countFile [CompareFileResult.FileMatches "a",
      CompareFileResult.FileMatches "b"] (.FileMatches "a") = 1 := by
  have h := c8_self_compare [("a", "AB"), ("b", "BB")] (by decide)
    ("a", "AB") rfl
  exact ⟨h.1, h.2 "a" (by decide)⟩

/-- C10: with well-formed inputs, `compare_hashes` is panic-free exactly
    when both mappings are nonempty — the unconditional first-value
    sampling panics on an empty side, and on nonempty sides no other panic
    source (the `assert_eq!` or the map indexing) can fire. -/
theorem c10_nonempty_precondition (ch lh : DigestMapping) (hwfc : WFMap ch)
    (hwfl : WFMap lh) :
    compare_hashes ch lh ≠ .panicked ↔ (ch ≠ [] ∧ lh ≠ []) := by
  constructor
  · intro hnp
    constructor
    · intro hch
      subst hch
      cases lh with
      | nil => exact hnp rfl
      | cons b bs => exact hnp rfl
    · intro hlh
      subst hlh
      cases ch with
      | nil => exact hnp rfl
      | cons a as => exact hnp rfl
  · rintro ⟨hch, hlh⟩
    cases ch with
    | nil => exact absurd rfl hch
    | cons a as =>
    cases lh with
    | nil => exact absurd rfl hlh
    | cons b bs =>
    by_cases hlen : a.2.length = b.2.length
    · rw [compare_hashes_ok hwfc hwfl (List.head?_cons) (List.head?_cons) hlen]
      intro hcon
      cases hcon
    · rw [compare_hashes_len_mismatch _ _ _ _ (List.head?_cons)
        (List.head?_cons) hlen]
      intro hcon
      cases hcon

/-- Witness for C10 at concrete nonempty mappings (and the panic-free
    value itself, for evaluation). -/
theorem c10_nonempty_precondition_witness :
    compare_hashes [("a", "AB")] [("b", "CD")] =
      .ok (.ok ([.FileAdded "a", .FileRemoved "b"], [])) ∧
    compare_hashes [("a", "AB")] [("b", "CD")] ≠ .panicked := by
  refine ⟨rfl, ?_⟩
  exact (c10_nonempty_precondition [("a", "AB")] [("b", "CD")] (by decide)
    (by decide)).mpr ⟨by decide, by decide⟩

/-! Character-class facts used by the codec proofs. -/

theorem uhd_ranges {c : Char} (h : isUpperHexDash c = true) :
    ((48 ≤ c.toNat ∧ c.toNat ≤ 57) ∨ (65 ≤ c.toNat ∧ c.toNat ≤ 70)) ∨
      c.toNat = 45 := by
  simpa [isUpperHexDash, isDigitC, isUpperHexLetter, Bool.or_eq_true,
    Bool.and_eq_true, decide_eq_true_eq] using h

theorem uhd_hexDash {c : Char} (h : isUpperHexDash c = true) :
    isHexDash c = true := by
  have hr := uhd_ranges h
  simp only [isHexDash, isHexDigitC, isDigitC, isUpperHexLetter,
    isLowerHexLetter, Bool.or_eq_true, Bool.and_eq_true, decide_eq_true_eq]
  omega

theorem uhd_not_ws {c : Char} (h : isUpperHexDash c = true) :
    isWs c = false := by
  have hr := uhd_ranges h
  apply Bool.eq_false_iff.mpr
  intro hw
  simp only [isWs, Bool.or_eq_true, decide_eq_true_eq] at hw
  omega

theorem uhd_toUpper {c : Char} (h : isUpperHexDash c = true) :
    rustToUpper c = c := by
  have hr := uhd_ranges h
  unfold rustToUpper
  rw [if_neg (by omega)]

theorem uhd_ne_semicolon {c : Char} (h : isUpperHexDash c = true) :
    c.toNat ≠ 59 := by
  have hr := uhd_ranges h
  omega

theorem hexDash_ne_space : isHexDash ' ' = false := rfl

theorem ws_space : isWs ' ' = true := rfl

theorem dropWhile_of_headNotWs {l : List Char} (h : headNotWs l = true) :
    l.dropWhile isWs = l := by
  cases l with
  | nil => simp [headNotWs] at h
  | cons c cs =>
    simp only [headNotWs] at h
    have hfc : isWs c = false := by simpa using h
    simp [List.dropWhile, hfc]

theorem goodHash_parts {h : String} (hh : goodHash h = true) :
    h.data ≠ [] ∧ ∀ c ∈ h.data, isUpperHexDash c = true := by
  unfold goodHash at hh
  simp only [Bool.and_eq_true] at hh
  obtain ⟨h1, h2⟩ := hh
  constructor
  · intro hnil
    rw [hnil] at h1
    simp at h1
  · exact fun c hc => List.all_eq_true.mp h2 c hc

theorem pathStable_parts {f : String} (hf : pathStable f = true) :
    headNotWs f.data = true ∧ headNotWs f.data.reverse = true ∧
    (∀ c ∈ f.data, c.toNat ≠ 10 ∧ c.toNat ≠ 9 ∧ c.toNat ≠ 42) ∧
    ((!(f.data.contains '\\') || f.data.contains '/') = true) := by
  unfold pathStable at hf
  simp only [Bool.and_eq_true] at hf
  obtain ⟨⟨⟨h1, h2⟩, h3⟩, h4⟩ := hf
  refine ⟨h1, h2, ?_, h4⟩
  intro c hc
  have hc3 := List.all_eq_true.mp h3 c hc
  simp only [Bool.and_eq_true, Bool.not_eq_true', decide_eq_false_iff_not]
    at hc3
  exact ⟨hc3.1.1, hc3.1.2, hc3.2⟩

/-! Parsing of a written manifest line. -/

theorem rgx1_written {h f : String} (hh : goodHash h = true)
    (hf : pathStable f = true) :
    rgx1Match (h.data ++ ' ' :: ' ' :: f.data) = some (h.data, f.data) := by
  obtain ⟨hhne, hhall⟩ := goodHash_parts hh
  obtain ⟨hfhead, _, _, _⟩ := pathStable_parts hf
  have hall1 : ∀ a ∈ h.data, isHexDash a = true :=
    fun a ha => uhd_hexDash (hhall a ha)
  unfold rgx1Match
  rw [takeWhile_append_stop hall1 hexDash_ne_space,
    dropWhile_append_stop hall1 hexDash_ne_space]
  obtain ⟨c, rest, hcr⟩ : ∃ c rest, f.data = c :: rest := by
    cases hfd : f.data with
    | nil => rw [hfd] at hfhead; simp [headNotWs] at hfhead
    | cons c rest => exact ⟨c, rest, rfl⟩
  have hcw : isWs c = false := by
    rw [hcr] at hfhead
    simpa [headNotWs] using hfhead
  have hdne : h.data.isEmpty = false := by
    cases hd : h.data with
    | nil => exact absurd hd hhne
    | cons a as => rfl
  rw [hcr]
  simp [List.takeWhile, List.dropWhile, ws_space, hcw, hdne]

theorem string_data_append (a b : String) : (a ++ b).data = a.data ++ b.data :=
  rfl

theorem written_line_data (h f : String) :
    (h ++ "  " ++ f).data = h.data ++ ' ' :: ' ' :: f.data := by
  rw [string_data_append, string_data_append, List.append_assoc]
  rfl

theorem filepath_parse_stable {f : String} (hf : pathStable f = true) :
    filepath_parse f.data = f.data := by
  obtain ⟨hfhead, hflast, hall, hbs⟩ := pathStable_parts hf
  have htrim : rustTrim f.data = f.data := by
    unfold rustTrim
    rw [dropWhile_of_headNotWs hfhead, dropWhile_of_headNotWs hflast,
      List.reverse_reverse]
  have hstar : f.data.filter (fun c => !(c.toNat = 42)) = f.data :=
    List.filter_eq_self.mpr (fun c hc => by
      simp [decide_eq_true_eq, (hall c hc).2.2])
  have hs2 : (rustTrim f.data).filter (fun c => !(c.toNat = 42)) = f.data := by
    rw [htrim]
    exact hstar
  show (if (((rustTrim f.data).filter (fun c => !(c.toNat = 42))).contains '\\' &&
        !(((rustTrim f.data).filter (fun c => !(c.toNat = 42))).contains '/')) then
      ((rustTrim f.data).filter (fun c => !(c.toNat = 42))).map
        (fun c => if c = '\\' then '/' else c)
    else (rustTrim f.data).filter (fun c => !(c.toNat = 42))) = f.data
  rw [hs2]
  cases hb : f.data.contains '\\' with
  | false => simp
  | true =>
    have hsl : f.data.contains '/' = true := by
      rw [hb] at hbs
      simpa using hbs
    simp only [hsl, Bool.not_true, Bool.and_false, Bool.false_eq_true,
      if_false]

theorem map_toUpper_good {h : String} (hh : goodHash h = true) :
    h.data.map rustToUpper = h.data := by
  obtain ⟨_, hall⟩ := goodHash_parts hh
  have : h.data.map rustToUpper = h.data.map id :=
    List.map_congr_left (fun c hc => uhd_toUpper (hall c hc))
  rw [this, List.map_id]

theorem try_contains_written {h f : String} (hh : goodHash h = true)
    (hf : pathStable f = true) (m : DigestMapping) :
    try_contains (h ++ "  " ++ f) m = .ok (insertMap m f h) := by
  unfold try_contains
  rw [written_line_data, rgx1_written hh hf]
  show Except.ok (insertMap m (String.mk (filepath_parse f.data))
      (String.mk (h.data.map rustToUpper))) = .ok (insertMap m f h)
  rw [filepath_parse_stable hf, map_toUpper_good hh]

theorem written_line_not_empty (h f : String) (hh : goodHash h = true) :
    (h ++ "  " ++ f).data.isEmpty = false := by
  rw [written_line_data]
  obtain ⟨hhne, _⟩ := goodHash_parts hh
  cases hd : h.data with
  | nil => exact absurd hd hhne
  | cons a as => rfl

theorem written_line_not_comment (h f : String) (hh : goodHash h = true) :
    ¬ ((rustTrimStart (h ++ "  " ++ f).data).head? = some ';') := by
  rw [written_line_data]
  obtain ⟨hhne, hhall⟩ := goodHash_parts hh
  cases hd : h.data with
  | nil => exact absurd hd hhne
  | cons a as =>
    have ha : isUpperHexDash a = true := by
      apply hhall
      rw [hd]
      exact List.mem_cons_self a as
    have haw : isWs a = false := uhd_not_ws ha
    unfold rustTrimStart
    rw [List.cons_append, List.dropWhile]
    rw [haw]
    simp only [List.head?_cons, Option.some.injEq]
    intro hsemi
    have : a.toNat = 59 := by rw [hsemi]; rfl
    exact uhd_ne_semicolon ha this

/-! The write/read round trip. -/

theorem readLines_writeLines (m : DigestMapping) :
    ∀ acc : DigestMapping, WFMap (acc ++ m) → goodMapping m = true →
      readLines (writeLines m) acc = .ok (acc ++ m) := by
  induction m with
  | nil => intro acc _ _; simp [writeLines, readLines]
  | cons e rest ih =>
    intro acc hwf hg
    obtain ⟨k, v⟩ := e
    have hg2 := by simpa only [goodMapping, List.all_cons, Bool.and_eq_true]
      using hg
    obtain ⟨⟨hpk, hgv⟩, hgrest⟩ := hg2
    have hline : writeLines ((k, v) :: rest) =
        (v ++ "  " ++ k) :: writeLines rest := rfl
    rw [hline]
    unfold readLines
    rw [written_line_not_empty v k hgv]
    simp only [Bool.false_eq_true, if_false]
    rw [if_neg (written_line_not_comment v k hgv)]
    rw [try_contains_written hgv hpk acc]
    have hbound : ∀ x ∈ acc, strLt x.1.data k.data = true := by
      intro x hx
      exact (List.pairwise_append.mp hwf).2.2 x hx (k, v)
        (List.mem_cons_self (k, v) rest)
    rw [insertMap_append hbound]
    have hshift : (acc ++ [(k, v)]) ++ rest = acc ++ (k, v) :: rest :=
      (List.append_cons acc (k, v) rest).symm
    have hwf2 : WFMap ((acc ++ [(k, v)]) ++ rest) := by rw [hshift]; exact hwf
    show readLines (writeLines rest) (acc ++ [(k, v)]) =
      Except.ok (acc ++ (k, v) :: rest)
    rw [ih (acc ++ [(k, v)]) hwf2 hgrest, hshift]

/-! Normalisation facts for `autodetect_from_hash`. -/

theorem trim_eq_self_of_no_ws {l : List Char}
    (h : ∀ c ∈ l, isWs c = false) : rustTrim l = l := by
  unfold rustTrim
  rw [dropWhile_eq_self_of_none h,
    dropWhile_eq_self_of_none (fun c hc => h c (List.mem_reverse.mp hc)),
    List.reverse_reverse]

theorem filter_not_ws_eq_self {l : List Char}
    (h : ∀ c ∈ l, isWs c = false) : l.filter (fun c => !isWs c) = l :=
  List.filter_eq_self.mpr (fun c hc => by rw [h c hc]; rfl)

theorem dash_not_ws {c : Char} (h : c.toNat = 45) : isWs c = false := by
  apply Bool.eq_false_iff.mpr
  intro hw
  simp only [isWs, Bool.or_eq_true, decide_eq_true_eq] at hw
  omega

theorem hexDigit_ranges {c : Char} (h : isHexDigitC c = true) :
    ((48 ≤ c.toNat ∧ c.toNat ≤ 57) ∨ (65 ≤ c.toNat ∧ c.toNat ≤ 70)) ∨
      (97 ≤ c.toNat ∧ c.toNat ≤ 102) := by
  simpa [isHexDigitC, isDigitC, isUpperHexLetter, isLowerHexLetter,
    Bool.or_eq_true, Bool.and_eq_true, decide_eq_true_eq] using h

theorem hexDigit_not_ws {c : Char} (h : isHexDigitC c = true) :
    isWs c = false := by
  have hr := hexDigit_ranges h
  apply Bool.eq_false_iff.mpr
  intro hw
  simp only [isWs, Bool.or_eq_true, decide_eq_true_eq] at hw
  omega

theorem startsWith0x_dash {l : List Char} (h : ∀ c ∈ l, c.toNat = 45) :
    startsWith0x l = false := by
  cases l with
  | nil => rfl
  | cons c1 rest =>
    cases rest with
    | nil => rfl
    | cons c2 rest2 =>
      have h1 := h c1 (by simp)
      simp [startsWith0x, h1]

theorem startsWith0x_hex {l : List Char} (h : ∀ c ∈ l, isHexDigitC c = true) :
    startsWith0x l = false := by
  cases l with
  | nil => rfl
  | cons c1 rest =>
    cases rest with
    | nil => rfl
    | cons c2 rest2 =>
      have h2 := hexDigit_ranges (h c2 (by simp))
      simp only [startsWith0x]
      apply Bool.eq_false_iff.mpr
      intro hcon
      simp only [Bool.and_eq_true, Bool.or_eq_true, decide_eq_true_eq] at hcon
      omega

theorem autodetect_norm {s : String} (hnws : ∀ c ∈ s.data, isWs c = false)
    (h0x : startsWith0x s.data = false) :
    autodetect_from_hash s = autodetectCore s.data := by
  show autodetectCore
      ((if startsWith0x (rustTrim s.data) then (rustTrim s.data).drop 2
        else rustTrim s.data).filter (fun c => !isWs c)) = autodetectCore s.data
  rw [trim_eq_self_of_no_ws hnws, h0x]
  rw [if_neg Bool.false_ne_true, filter_not_ws_eq_self hnws]

/-! Claim theorems for the codec, the parser, autodetection, check mode and
    error propagation. -/

/-- C2 counterexample: the round trip fails as stated on the mapping with
    the single path `*` (a legal file name) — the read-side cleanup strips
    the star, so reading back the written manifest yields the empty path
    instead. -/
theorem c2_star_path_not_roundtrip :
    read_hashes (some (writeLines [("*", "ABCD1234")])) =
      .ok (.ok [("", "ABCD1234")]) ∧
    ([("", "ABCD1234")] : DigestMapping) ≠ [("*", "ABCD1234")] :=
  ⟨rfl, by decide⟩

/-- C2 amended: for every well-formed mapping whose digests are nonempty
    uppercase hex-or-dash strings and whose paths survive the read-side
    normalisation (nonempty, no line feed, tab or star characters, no
    surrounding whitespace, and a slash whenever there is a backslash),
    writing with `write_hashes` and reading the lines back with
    `read_hashes` returns exactly the original mapping.  No placeholder
    entry is injected on write (the insertion is commented out), so nothing
    needs to be excluded before comparison. -/
theorem c2_roundtrip_stable (m : DigestMapping) (hwf : WFMap m)
    (hg : goodMapping m = true) :
    read_hashes (some (writeLines m)) = .ok (.ok m) := by
  show RustRes.ok (readLines (writeLines m) []) = .ok (.ok m)
  rw [readLines_writeLines m [] hwf hg, List.nil_append]

/-- Witness for the amended C2 at a concrete two-entry mapping. -/
theorem c2_roundtrip_stable_witness :
    read_hashes (some (writeLines
      [("a.txt", "ABCD1234"), ("b/c.txt", "99AA00FF")])) =
      .ok (.ok [("a.txt", "ABCD1234"), ("b/c.txt", "99AA00FF")]) :=
  c2_roundtrip_stable [("a.txt", "ABCD1234"), ("b/c.txt", "99AA00FF")]
    (by decide) (by decide)

/-- C3 counterexample: writing a one-entry mapping to `o.hash` emits
    exactly the one entry line; the read-back manifest has no entry for the
    manifest's own filename at all, let alone an all-dash placeholder (the
    sentinel insertion is commented out in the source). -/
theorem c3_no_sentinel_emitted :
    write_hashes "o.hash" true [("a.txt", "ABCD1234")] =
      .ok (0, ["ABCD1234  a.txt"]) ∧
    read_hashes (some ["ABCD1234  a.txt"]) =
      .ok (.ok [("a.txt", "ABCD1234")]) ∧
    lookupMap [("a.txt", "ABCD1234")] "o.hash" = none :=
  ⟨rfl, rfl, rfl⟩

/-- C3 amended: `write_hashes` emits exactly one line per entry of the
    mapping and appends no sentinel entry for the output file; reading the
    written lines back returns exactly the input mapping. -/
theorem c3_write_no_sentinel (out : String) (m : DigestMapping)
    (hwf : WFMap m) (hg : goodMapping m = true) :
    write_hashes out true m = .ok (0, writeLines m) ∧
    (writeLines m).length = m.length ∧
    readLines (writeLines m) [] = .ok m := by
  refine ⟨rfl, ?_, ?_⟩
  · exact List.length_map m _
  · exact readLines_writeLines m [] hwf hg

/-- Witness for the amended C3 at a concrete mapping and output file. -/
theorem c3_write_no_sentinel_witness :
    write_hashes "o.hash" true [("a.txt", "ABCD1234")] =
      .ok (0, writeLines [("a.txt", "ABCD1234")]) ∧
    (writeLines [("a.txt", "ABCD1234")]).length = 1 ∧
    readLines (writeLines [("a.txt", "ABCD1234")]) [] =
      .ok [("a.txt", "ABCD1234")] := by
  have h := c3_write_no_sentinel "o.hash" [("a.txt", "ABCD1234")]
    (by decide) (by decide)
  exact ⟨h.1, h.2.1, h.2.2⟩

/-- C5 counterexample: on the all-dash input of length 10 — a length
    outside the table — the dash branch returns its plain `BLAKE3` default,
    not the `CRC32` that the claimed nearest-bucket rule (<12→CRC32) would
    give; the bucket fallback exists only in the hex branch. -/
theorem c5_dash_bucket_counterexample :
    autodetect_from_hash "----------" = Algorithm.BLAKE3 ∧
    Algorithm.BLAKE3 ≠ Algorithm.CRC32 :=
  ⟨rfl, by decide⟩

/-- C5 amended: for nonempty inputs that are already normalised, both
    branches apply the same length table (8→CRC32, 16→XXH64, 32→MD5,
    40→SHA-1, 56→SHA-224, 64→BLAKE3, 96→SHA-384, 128→BLAKE2b); for lengths
    outside the table the all-hex branch snaps to the nearest bucket
    (<12→CRC32, <36→MD5, <52→BLAKE3, <110→SHA-384, else BLAKE2b) while the
    all-dash branch falls back to BLAKE3. -/
theorem c5_autodetect_table (s : String) (hne : s.data ≠ []) :
    ((∀ c ∈ s.data, c.toNat = 45) →
      autodetect_from_hash s = specDashAlgo s.data.length) ∧
    ((∀ c ∈ s.data, isHexDigitC c = true) →
      autodetect_from_hash s = specHexAlgo s.data.length) := by
  constructor
  · intro hdash
    have hnws : ∀ c ∈ s.data, isWs c = false :=
      fun c hc => dash_not_ws (hdash c hc)
    rw [autodetect_norm hnws (startsWith0x_dash hdash)]
    unfold autodetectCore
    have hcond : (!s.data.isEmpty &&
        s.data.all (fun c => decide (c.toNat = 45))) = true := by
      simp only [Bool.and_eq_true, Bool.not_eq_true', List.all_eq_true,
        decide_eq_true_eq]
      constructor
      · cases hd : s.data with
        | nil => exact absurd hd hne
        | cons c cs => rfl
      · exact hdash
    rw [if_pos hcond]
    rfl
  · intro hhex
    have hnws : ∀ c ∈ s.data, isWs c = false :=
      fun c hc => hexDigit_not_ws (hhex c hc)
    rw [autodetect_norm hnws (startsWith0x_hex hhex)]
    unfold autodetectCore
    have hcond1 : (!s.data.isEmpty &&
        s.data.all (fun c => decide (c.toNat = 45))) = false := by
      cases hd : s.data with
      | nil => exact absurd hd hne
      | cons c cs =>
        have hc := hexDigit_ranges (hhex c (by rw [hd]; simp))
        have h45 : ¬ (c.toNat = 45) := by omega
        simp [List.all_cons, h45]
    have hnotc : ¬ ((!s.data.isEmpty &&
        s.data.all (fun c => decide (c.toNat = 45))) = true) := by
      rw [hcond1]
      exact Bool.false_ne_true
    rw [if_neg hnotc]
    have hcond2 : (!s.data.isEmpty && s.data.all isHexDigitC) = true := by
      simp only [Bool.and_eq_true, Bool.not_eq_true', List.all_eq_true]
      constructor
      · cases hd : s.data with
        | nil => exact absurd hd hne
        | cons c cs => rfl
      · exact hhex
    rw [if_pos hcond2]
    rfl

/-- Witness for the amended C5: the table on an 8-dash input and the
    nearest-bucket fallback on a 4-character hex input. -/
theorem c5_autodetect_table_witness :
    autodetect_from_hash "--------" = specDashAlgo "--------".data.length ∧
    autodetect_from_hash "AB12" = specHexAlgo "AB12".data.length := by
  constructor
  · exact (c5_autodetect_table "--------" (by decide)).1 (by decide)
  · exact (c5_autodetect_table "AB12" (by decide)).2 (by decide)

/-- C6: in check mode with the algorithm left `UNSPECIFIED`, a manifest
    whose only digest is an all-dash placeholder leaves no usable example
    digest, and the selection step panics (it calls `.unwrap()` on the
    emptied iterator) instead of reporting the autodetection failure. -/
theorem c6_placeholder_only_manifest_panics :
    checkSelectAlgorithm Algorithm.UNSPECIFIED
      [("a.txt", String.mk (List.replicate 64 '-'))] = .panicked :=
  rfl

/-- C7: the digest-first line and the path-first line both parse to the
    entry `(dir/file.txt, A1B2C3)`, and lowercase digests are normalised to
    uppercase under both grammars. -/
theorem c7_parser_tolerance :
    try_contains "A1B2C3  dir/file.txt" [] =
      .ok [("dir/file.txt", "A1B2C3")] ∧
    try_contains "dir/file.txt\tA1B2C3" [] =
      .ok [("dir/file.txt", "A1B2C3")] ∧
    try_contains "a1b2c3  dir/file.txt" [] =
      .ok [("dir/file.txt", "A1B2C3")] ∧
    try_contains "dir/file.txt\ta1b2c3" [] =
      .ok [("dir/file.txt", "A1B2C3")] :=
  ⟨rfl, rfl, rfl, rfl⟩

/-- C9 counterexample: a missing manifest makes `read_hashes` panic (the
    `File::open(..).unwrap()`), and an uncreatable destination makes
    `write_hashes` panic (the `File::create(..).unwrap()`) — neither
    failure is surfaced as a typed result. -/
theorem c9_missing_file_and_bad_dest_panic :
    read_hashes none = (.panicked : RustRes (Except Error DigestMapping)) ∧
    write_hashes "out.hash" false [("a.txt", "ABCD1234")] = .panicked :=
  ⟨rfl, rfl⟩

/-- C9 amended: `read_hashes` surfaces line-level parse failures as typed
    `Error` results, but a manifest file that cannot be opened causes a
    panic, and `write_hashes` panics when the destination cannot be
    created (and returns a bare status integer, not a typed result). -/
theorem c9_io_panics_parse_typed (out badline : String) (m : DigestMapping)
    (rest : List String) (h1 : badline.data ≠ [])
    (h2 : ¬ ((rustTrimStart badline.data).head? = some ';'))
    (h3 : rgx1Match badline.data = none) (h4 : rgx2Match badline.data = none) :
    read_hashes none = (.panicked : RustRes (Except Error DigestMapping)) ∧
    write_hashes out false m = .panicked ∧
    read_hashes (some (badline :: rest)) =
      .ok (.error (.HashesFileParsingFailure badline)) := by
  refine ⟨rfl, rfl, ?_⟩
  have hne : ¬ (badline.data.isEmpty = true) :=
    fun hcon => h1 (List.isEmpty_iff.mp hcon)
  have ht : try_contains badline [] =
      .error (.HashesFileParsingFailure badline) := by
    unfold try_contains
    rw [h3, h4]
  show RustRes.ok (if badline.data.isEmpty = true then readLines rest []
      else if (rustTrimStart badline.data).head? = some ';' then
        readLines rest []
      else match try_contains badline [] with
        | .ok m1 => readLines rest m1
        | .error e => .error e) =
    .ok (.error (.HashesFileParsingFailure badline))
  rw [if_neg hne, if_neg h2, ht]

/-- Witness for the amended C9 with the unparsable line `!!!`. -/
theorem c9_io_panics_parse_typed_witness :
    read_hashes none = (.panicked : RustRes (Except Error DigestMapping)) ∧
    write_hashes "out.hash" false [("a.txt", "ABCD1234")] = .panicked ∧
    read_hashes (some ["!!!"]) =
      .ok (.error (.HashesFileParsingFailure "!!!")) :=
  c9_io_panics_parse_typed "out.hash" "!!!" [("a.txt", "ABCD1234")] []
    (by decide) (by decide) (by decide) (by decide)

end QuickDash
